import Mathlib

/-!
Verification of the RLE utility (src/rle.c).

The development shallowly embeds the two stream transducers `encode` and
`decode` of src/rle.c, plus the exit-status logic of `main`, and proves the
specification claims about them.

Modelling conventions:
* A byte is a `Nat` (the C code reads bytes with `fgetc`, values 0..255).
* The encoder lookahead buffer `uint8_t buf[0x81]` with length `len` is
  modelled as a list `rbuf` holding the buffered bytes in MOST-RECENT-FIRST
  order, i.e. `rbuf = (C buffer).reverse` and `len = rbuf.length`.  Under this
  convention the C expressions translate as:
    - appending the byte just read (`buf[len++] = ch`)  ->  `ch :: rbuf`
    - `buf[len - 1]` (newest byte)                      ->  `rbuf.head`
    - `buf[len - 2]` (second newest)                    ->  `rbuf.tail.head`
    - `buf[0]` (oldest byte, the run payload)           ->  `rbuf.getLastD 0`
    - flushing the first `k` bytes and shifting
      (`memmove(&buf[0], &buf[k], len - k)`)            ->  keeping a suffix
      of `rbuf`; the flushed prefix of the C buffer is the dropped part of
      `rbuf`, reversed.
* The pure layer (`encode`, `decode`, ...) models runs with a never-failing
  sink and an input that ends in a clean EOF; it is used for the functional
  claims.  The effectful layer (`decLoopF`, `encLoopF`, ...) additionally
  models `ferror(fin)` (input that ends in an error-EOF), a sink that fails
  after a given number of successful writes (`ferror(fout)`), and the
  classification / return-value logic after the loops; it is used for the
  error-handling claims.
-/

/-- A segment of the compressed wire format: either a run (count, payload
byte), written by the repeat-mode flush of `encode` (src/rle.c lines 97-109),
or a literal byte list, written by the literal-mode flush (lines 110-123). -/
inductive Seg where
  | run : Nat → Nat → Seg
  | lit : List Nat → Seg
deriving DecidableEq, Repr

/-- The raw bytes a segment stands for: a run expands to `count` copies of its
payload; a literal expands to its bytes verbatim. -/
def Seg.expand : Seg → List Nat
  | Seg.run c b => List.replicate c b
  | Seg.lit l => l

/-- Wire serialisation of one segment, following the format comment of
src/rle.c lines 22-25 and the emission code: a run is its count byte (< 0x80)
followed by the payload byte (`fputc(flush); fputc(buf[0])`, lines 106-109); a
literal of n bytes is the control byte `0x100 - n` followed by the bytes
(`fputc(0x100 - flush); fwrite(buf, flush, 1)`, lines 119-122). -/
def serSeg : Seg → List Nat
  | Seg.run c b => [c, b]
  | Seg.lit l => (0x100 - l.length) :: l

/-- Concatenated expansion of a segment list. -/
def expandAll : List Seg → List Nat
  | [] => []
  | s :: t => s.expand ++ expandAll t

/-- Concatenated serialisation of a segment list. -/
def serAll : List Seg → List Nat
  | [] => []
  | s :: t => serSeg s ++ serAll t

/-- One iteration of the body of the `encode` loop (src/rle.c lines 97-123)
AFTER the `fgetc`/append step: given the buffer contents `rbuf`
(most-recent-first, already including the byte just read when there is one),
the `repeat` flag, and whether this is the final `ch == EOF` iteration,
it returns the emitted segments (none or one), the buffer left after the
`memmove` shift (line 127), and the new `repeat` flag. -/
def encStep : List Nat → Bool → Bool → List Seg × List Nat × Bool
  | c :: p :: rest, true, isEof =>
    -- repeat mode: there are always at least 2 bytes in the buffer
    if c ≠ p then
      -- buf[len-2] != buf[len-1]: flush = len - 1, leave the new byte
      ([Seg.run ((c :: p :: rest).length - 1) ((c :: p :: rest).getLastD 0)],
       [c], false)
    else if (c :: p :: rest).length = 0x7f || isEof then
      -- run reached max count, or input exhausted: flush = len
      ([Seg.run (c :: p :: rest).length ((c :: p :: rest).getLastD 0)],
       [], false)
    else
      ([], c :: p :: rest, true)
  | rbuf, true, _ =>
    -- unreachable when the C invariant (≥ 2 buffered bytes in repeat mode)
    -- holds; keep the state unchanged
    ([], rbuf, true)
  | c :: p :: rest, false, isEof =>
    if c = p then
      -- run detected: flush = len - 2 as a literal (if non-empty), keep the
      -- two matching bytes, enter repeat mode
      ((if rest.isEmpty then [] else [Seg.lit rest.reverse]), [c, p], true)
    else if (c :: p :: rest).length = 0x81 then
      -- buffer full: flush = 0x80 as a literal, keep the newest byte
      ([Seg.lit (p :: rest).reverse], [c], false)
    else if isEof then
      -- input exhausted: flush = len as a final literal
      ([Seg.lit (c :: p :: rest).reverse], [], false)
    else
      ([], c :: p :: rest, false)
  | rbuf, false, isEof =>
    -- fewer than 2 buffered bytes: only the end-of-input flush can fire;
    -- `if (flush)` skips the write when flush = len = 0
    if isEof then
      ((if rbuf.isEmpty then [] else [Seg.lit rbuf.reverse]), [], false)
    else
      ([], rbuf, false)

/-- The `encode` loop of src/rle.c (lines 90-131) at segment granularity, with
a never-failing sink and a clean EOF: each input byte is appended to the
buffer and one `encStep` runs; after the last byte one more iteration runs
with `ch == EOF` and then the loop exits. -/
def encLoop : List Nat → List Nat → Bool → List Seg
  | [], rbuf, rep => (encStep rbuf rep true).1
  | c :: rest, rbuf, rep =>
    let s := encStep (c :: rbuf) rep false
    s.1 ++ encLoop rest s.2.1 s.2.2

/-- Segments emitted by `encode(fin, fout)` of src/rle.c on the given input
bytes (initial state: `len = 0`, `repeat = 0`). -/
def encode (s : List Nat) : List Seg := encLoop s [] false

/-- The compressed byte stream `encode` writes to its sink. -/
def encodeBytes (s : List Nat) : List Nat := serAll (encode s)

/-- The `decode` loop of src/rle.c (lines 51-69) with a never-failing sink and
a clean EOF.  State `len` is the variable `len`; `acc` is the output written
so far.  Returns `none` when the loop ends with `len ≠ 0` (the
"Unexpected end of stream" case of line 77), otherwise `some` output. -/
def decLoop : List Nat → Nat → List Nat → Option (List Nat)
  | [], len, acc => if len = 0 then some acc else none
  | ch :: rest, len, acc =>
    if len = 0 then
      if ch = 0 then some acc
      else decLoop rest ch acc
    else if len < 0x80 then
      -- run: the do-while writes ch len times and leaves len = 0
      decLoop rest 0 (acc ++ List.replicate len ch)
    else
      decLoop rest ((len + 1) % 0x100) (acc ++ [ch])

/-- `decode(fin, fout)` of src/rle.c on the given input bytes, with a
never-failing sink: `some` of the decoded bytes, or `none` on truncation. -/
def decode (s : List Nat) : Option (List Nat) := decLoop s 0 []

/-- Segment validity bounds stated by the spec: a run has count 2..127, a
literal has 1..128 bytes. -/
def validSeg : Seg → Bool
  | Seg.run c _ => 2 ≤ c && c ≤ 127
  | Seg.lit l => 1 ≤ l.length && l.length ≤ 128

/-- Adjacency relation the spec claims for consecutive emitted segments: never
two literals, never two runs with the same payload byte. -/
def segMergeFree : Seg → Seg → Bool
  | Seg.lit _, Seg.lit _ => false
  | Seg.run _ b1, Seg.run _ b2 => b1 != b2
  | _, _ => true

/-- Adjacency relation the encoder actually guarantees: two consecutive
literals only when the first is a maximal literal of 128 bytes, and two
consecutive runs of the same payload only when the first is a maximal run of
count 127. -/
def segOK2 : Seg → Seg → Bool
  | Seg.lit l1, Seg.lit _ => l1.length == 128
  | Seg.run c1 b1, Seg.run _ b2 => b1 != b2 || c1 == 127
  | _, _ => true

/-- The sequence of (buffer, repeat-flag) states of the `encode` loop at the
start of each iteration (before the `fgetc`), beginning from the given state;
mirrors `encLoop`. -/
def encStates : List Nat → List Nat → Bool → List (List Nat × Bool)
  | [], rbuf, rep => [(rbuf, rep)]
  | c :: rest, rbuf, rep =>
    let s := encStep (c :: rbuf) rep false
    (rbuf, rep) :: encStates rest s.2.1 s.2.2

/-- Number of data bytes a length-control byte `L` announces: 1 for a run
(`L < 0x80`), `0x100 - L` for a literal. -/
def segDataLen (L : Nat) : Nat := if L < 0x80 then 1 else 0x100 - L

/-- Head-pair distinctness: in literal mode the two most recent buffered bytes
differ (otherwise the encoder would already have switched to repeat mode). -/
def headPairNe : List Nat → Prop
  | a :: b :: _ => a ≠ b
  | _ => True

/-- Loop invariant of `encode` at the start of an iteration: in repeat mode
the buffer is 2..126 copies of the run byte; in literal mode it holds at most
128 bytes and its two most recent bytes differ. -/
def EncInv : List Nat → Bool → Prop
  | rbuf, true => ∃ m v, rbuf = List.replicate (m + 2) v ∧ m + 2 ≤ 126
  | rbuf, false => rbuf.length ≤ 128 ∧ headPairNe rbuf

/-- Relation between the most recently emitted segment and the current
encoder state, strong enough to propagate the `segOK2` adjacency guarantee:
in repeat mode a pending run can only repeat the previous run's payload if
that run was maximal; in literal mode a previous non-maximal run's payload
differs from the oldest buffered byte (the only byte that can seed a run with
no literal emitted in between), and a previous literal still pending in
literal mode is necessarily a maximal one. -/
def chainInv : Seg → List Nat → Bool → Prop
  | Seg.run c p, rbuf, true => p = rbuf.headD 0 → c = 127
  | Seg.lit _, _, true => True
  | Seg.run c p, rbuf, false => c ≠ 127 → rbuf ≠ [] ∧ rbuf.getLastD 0 ≠ p
  | Seg.lit l, _, false => l.length = 128

/-- Sentinel previous segment for the start of encoding; it is `segOK2`-ok
before anything and satisfies `chainInv` in the initial state. -/
def prev0 : Seg := Seg.lit (List.replicate 128 0)

theorem expandAll_append (a b : List Seg) :
    expandAll (a ++ b) = expandAll a ++ expandAll b := by
  induction a with
  | nil => rfl
  | cons s t ih => simp [expandAll, ih]

theorem serAll_append (a b : List Seg) :
    serAll (a ++ b) = serAll a ++ serAll b := by
  induction a with
  | nil => rfl
  | cons s t ih => simp [serAll, ih]

theorem getLastD_cons_cons (c x : Nat) (xs : List Nat) (d : Nat) :
    (c :: x :: xs).getLastD d = (x :: xs).getLastD d := by
  simp [List.getLastD_cons]

theorem getLastD_replicate (m v d : Nat) :
    (List.replicate (m + 1) v).getLastD d = v := by
  induction m generalizing d with
  | zero => simp [List.replicate_succ, List.getLastD_cons]
  | succ k ih => rw [List.replicate_succ, List.getLastD_cons]; exact ih v

theorem rep3 (m c : Nat) :
    c :: c :: c :: List.replicate m c = List.replicate m c ++ [c, c, c] := by
  induction m with
  | zero => rfl
  | succ k ih => simp only [List.replicate_succ, List.cons_append, ← ih]

theorem rep2app (m v : Nat) (t : List Nat) :
    v :: v :: (List.replicate m v ++ t) = List.replicate m v ++ (v :: v :: t) := by
  induction m with
  | zero => rfl
  | succ k ih => simp only [List.replicate_succ, List.cons_append, ← ih]

theorem encStep_cons_spec (c : Nat) (rbuf : List Nat) (rep : Bool) (prev : Seg)
    (segs : List Seg) (rbuf' : List Nat) (rep' : Bool)
    (hinv : EncInv rbuf rep) (hch : chainInv prev rbuf rep)
    (heq : encStep (c :: rbuf) rep false = (segs, rbuf', rep')) :
    EncInv rbuf' rep' ∧
    expandAll segs ++ rbuf'.reverse = rbuf.reverse ++ [c] ∧
    (∀ seg ∈ segs, validSeg seg = true) ∧
    ((segs = [] ∧ chainInv prev rbuf' rep') ∨
      (∃ x, segs = [x] ∧ segOK2 prev x = true ∧ chainInv x rbuf' rep')) := by
  cases rep with
  | true =>
    obtain ⟨m, v, hbuf, hm⟩ := hinv
    subst hbuf
    have hhead : (List.replicate (m + 2) v).headD 0 = v := by
      simp [List.replicate_succ]
    have hOK : ∀ cnt, segOK2 prev (Seg.run cnt v) = true := by
      intro cnt
      cases prev with
      | lit l => simp [segOK2]
      | run c0 p0 =>
        simp only [chainInv, hhead] at hch
        by_cases hp : p0 = v
        · simp [segOK2, hch hp]
        · simp [segOK2, hp]
    rw [List.replicate_succ, List.replicate_succ] at heq
    have hlast : (c :: v :: v :: List.replicate m v).getLastD 0 = v := by
      rw [getLastD_cons_cons]
      have h2 := getLastD_replicate (m + 1) v 0
      rw [List.replicate_succ] at h2
      exact h2
    by_cases hc : c = v
    · subst hc
      by_cases h7 : (c :: c :: c :: List.replicate m c).length = 0x7f
      · simp only [encStep, ne_eq, not_true_eq_false, if_false, reduceIte,
          Bool.or_false, decide_eq_true_eq, if_pos h7, hlast,
          Prod.mk.injEq] at heq
        obtain ⟨rfl, rfl, rfl⟩ := heq
        simp only [List.length_cons, List.length_replicate] at h7
        refine ⟨⟨by simp, trivial⟩, ?_, ?_, ?_⟩
        · simp only [expandAll, Seg.expand, List.append_nil,
            List.reverse_cons, List.reverse_replicate, List.append_assoc,
            List.length_cons, List.length_replicate]
          rw [show m + 1 + 1 + 1 = m + 3 by omega]
          rw [show (List.replicate (m + 3) c : List Nat)
              = c :: c :: c :: List.replicate m c by simp [List.replicate_succ]]
          rw [rep3, List.replicate_add]
          simp
        · intro seg hseg
          simp only [List.mem_singleton] at hseg
          subst hseg
          simp only [validSeg, List.length_cons, List.length_replicate]
          simp only [Bool.and_eq_true, decide_eq_true_eq]
          omega
        · right
          refine ⟨_, rfl, ?_, ?_⟩
          · simpa using hOK _
          · simp only [chainInv, List.length_cons, List.length_replicate]
            intro hne
            exact absurd (by omega : m + 3 = 127) (by simpa using hne)
      · simp only [encStep, ne_eq, not_true_eq_false, if_false, reduceIte,
          Bool.or_false, decide_eq_true_eq, if_neg h7, Prod.mk.injEq] at heq
        obtain ⟨rfl, rfl, rfl⟩ := heq
        simp only [List.length_cons, List.length_replicate] at h7
        refine ⟨⟨m + 1, c, by simp [List.replicate_succ], by omega⟩, ?_, ?_, ?_⟩
        · simp [expandAll, List.reverse_replicate, List.replicate_succ,
            List.replicate_succ']
        · simp
        · left
          refine ⟨rfl, ?_⟩
          cases prev with
          | lit l => trivial
          | run c0 p0 =>
            simp only [chainInv, hhead] at hch
            simp only [chainInv, List.headD_cons]
            exact hch
    · simp only [encStep, ne_eq, hc, not_false_eq_true, if_true, reduceIte,
        hlast, List.length_cons, List.length_replicate, Prod.mk.injEq] at heq
      obtain ⟨rfl, rfl, rfl⟩ := heq
      refine ⟨⟨by simp, trivial⟩, ?_, ?_, ?_⟩
      · simp only [expandAll, Seg.expand, List.append_nil, List.reverse_cons,
          List.reverse_replicate, List.append_assoc, List.reverse_nil,
          List.nil_append, List.singleton_append]
        rw [show m + 1 + 1 + 1 - 1 = m + 2 by omega]
      · intro seg hseg
        simp only [List.mem_singleton] at hseg
        subst hseg
        simp only [validSeg, Bool.and_eq_true, decide_eq_true_eq]
        omega
      · right
        refine ⟨_, rfl, ?_, ?_⟩
        · have := hOK (m + 1 + 1 + 1 - 1)
          simpa using this
        · simp only [chainInv]
          intro _
          exact ⟨by simp, by simp [List.getLastD, hc]⟩
  | false =>
    obtain ⟨hlen, hpair⟩ := hinv
    cases rbuf with
    | nil =>
      simp only [encStep, reduceIte, Prod.mk.injEq] at heq
      obtain ⟨rfl, rfl, rfl⟩ := heq
      refine ⟨⟨by simp, trivial⟩, by simp [expandAll], by simp, ?_⟩
      left
      refine ⟨rfl, ?_⟩
      cases prev with
      | lit l => exact hch
      | run c0 p0 =>
        simp only [chainInv] at hch ⊢
        intro h127
        exact absurd rfl (hch h127).1
    | cons p t =>
      by_cases hcp : c = p
      · subst hcp
        cases t with
        | nil =>
          simp only [encStep, reduceIte, List.isEmpty_nil, Prod.mk.injEq] at heq
          obtain ⟨rfl, rfl, rfl⟩ := heq
          refine ⟨⟨0, c, by simp [List.replicate_succ], by omega⟩,
            by simp [expandAll], by simp, ?_⟩
          left
          refine ⟨rfl, ?_⟩
          cases prev with
          | lit l => trivial
          | run c0 p0 =>
            simp only [chainInv] at hch ⊢
            intro hp0
            by_cases h127 : c0 = 127
            · exact h127
            · have hp0c : p0 = c := by simpa using hp0
              exact absurd (by simp [List.getLastD, hp0c]) (hch h127).2
        | cons q t' =>
          simp only [encStep, reduceIte, List.isEmpty_cons, Bool.false_eq_true,
            if_false, Prod.mk.injEq] at heq
          obtain ⟨rfl, rfl, rfl⟩ := heq
          refine ⟨⟨0, c, by simp [List.replicate_succ], by omega⟩, ?_, ?_, ?_⟩
          · simp [expandAll, Seg.expand]
          · intro seg hseg
            simp only [List.mem_singleton] at hseg
            subst hseg
            simp only [validSeg, List.length_reverse, List.length_cons,
              Bool.and_eq_true, decide_eq_true_eq]
            simp only [List.length_cons] at hlen
            omega
          · right
            refine ⟨_, rfl, ?_, trivial⟩
            cases prev with
            | run c0 p0 => simp [segOK2]
            | lit l =>
              simp only [chainInv] at hch
              simp [segOK2, hch]
      · by_cases h81 : (c :: p :: t).length = 0x81
        · simp only [encStep, reduceIte, hcp, if_neg, ne_eq, not_false_eq_true,
            if_pos h81, Prod.mk.injEq] at heq
          obtain ⟨rfl, rfl, rfl⟩ := heq
          simp only [List.length_cons] at h81
          refine ⟨⟨by simp, trivial⟩, ?_, ?_, ?_⟩
          · simp [expandAll, Seg.expand]
          · intro seg hseg
            simp only [List.mem_singleton] at hseg
            subst hseg
            simp only [validSeg, List.length_reverse, List.length_cons,
              Bool.and_eq_true, decide_eq_true_eq]
            omega
          · right
            refine ⟨_, rfl, ?_, ?_⟩
            · cases prev with
              | run c0 p0 => simp [segOK2]
              | lit l =>
                simp only [chainInv] at hch
                simp [segOK2, hch]
            · simp only [chainInv, List.length_reverse, List.length_cons]
              omega
        · simp only [encStep, reduceIte, hcp, if_neg, ne_eq, not_false_eq_true,
            if_neg h81, Prod.mk.injEq] at heq
          obtain ⟨rfl, rfl, rfl⟩ := heq
          simp only [List.length_cons] at h81 hlen
          refine ⟨⟨by simp; omega, hcp⟩, by simp [expandAll], by simp, ?_⟩
          left
          refine ⟨rfl, ?_⟩
          cases prev with
          | lit l => exact hch
          | run c0 p0 =>
            simp only [chainInv] at hch ⊢
            intro h127
            refine ⟨by simp, ?_⟩
            rw [getLastD_cons_cons]
            exact (hch h127).2

theorem segOK2_run (prev : Seg) (rbuf : List Nat) (v : Nat)
    (hch : chainInv prev rbuf true) (hhead : rbuf.headD 0 = v) :
    ∀ cnt, segOK2 prev (Seg.run cnt v) = true := by
  intro cnt
  cases prev with
  | lit l => simp [segOK2]
  | run c0 p0 =>
    simp only [chainInv] at hch
    rw [hhead] at hch
    by_cases hp : p0 = v
    · simp [segOK2, hch hp]
    · simp [segOK2, hp]

theorem chainInv_prev0 (rbuf : List Nat) (rep : Bool) : chainInv prev0 rbuf rep := by
  cases rep with
  | true => trivial
  | false => simp [chainInv, prev0]

theorem encStep_eof_spec (rbuf : List Nat) (rep : Bool) (prev : Seg)
    (segs : List Seg) (rbuf' : List Nat) (rep' : Bool)
    (hinv : EncInv rbuf rep) (hch : chainInv prev rbuf rep)
    (heq : encStep rbuf rep true = (segs, rbuf', rep')) :
    expandAll segs = rbuf.reverse ∧
    (∀ seg ∈ segs, validSeg seg = true) ∧
    List.Chain (fun a b => segOK2 a b = true) prev segs := by
  cases rep with
  | true =>
    obtain ⟨m, v, hbuf, hm⟩ := hinv
    subst hbuf
    have hhead : (List.replicate (m + 2) v).headD 0 = v := by
      simp [List.replicate_succ]
    have hOK := segOK2_run prev (List.replicate (m + 2) v) v hch hhead
    rw [List.replicate_succ, List.replicate_succ] at heq
    have hlast : (v :: v :: List.replicate m v).getLastD 0 = v := by
      have h2 := getLastD_replicate (m + 1) v 0
      rw [List.replicate_succ] at h2
      exact h2
    simp only [encStep, ne_eq, not_true_eq_false, if_false, reduceIte,
      Bool.or_true, if_true, hlast, Prod.mk.injEq] at heq
    obtain ⟨rfl, rfl, rfl⟩ := heq
    refine ⟨?_, ?_, ?_⟩
    · simp only [expandAll, Seg.expand, List.append_nil, List.length_cons,
        List.length_replicate, List.reverse_cons, List.reverse_replicate,
        List.append_assoc]
    · intro seg hseg
      simp only [List.mem_singleton] at hseg
      subst hseg
      simp only [validSeg, List.length_cons, List.length_replicate,
        Bool.and_eq_true, decide_eq_true_eq]
      omega
    · exact List.Chain.cons (by simpa using hOK _) List.Chain.nil
  | false =>
    obtain ⟨hlen, hpair⟩ := hinv
    have hOKlit : ∀ l, segOK2 prev (Seg.lit l) = true := by
      intro l
      cases prev with
      | run c0 p0 => simp [segOK2]
      | lit l0 =>
        simp only [chainInv] at hch
        simp [segOK2, hch]
    cases rbuf with
    | nil =>
      simp only [encStep, reduceIte, List.isEmpty_nil, if_true,
        Prod.mk.injEq] at heq
      obtain ⟨rfl, rfl, rfl⟩ := heq
      exact ⟨rfl, by simp, List.Chain.nil⟩
    | cons p t =>
      cases t with
      | nil =>
        simp only [encStep, reduceIte, List.isEmpty_cons, Bool.false_eq_true,
          if_false, Prod.mk.injEq] at heq
        obtain ⟨rfl, rfl, rfl⟩ := heq
        refine ⟨by simp [expandAll, Seg.expand], by simp [validSeg], ?_⟩
        exact List.Chain.cons (by simpa using hOKlit _) List.Chain.nil
      | cons q t' =>
        have hpq : ¬p = q := hpair
        have h81 : ¬(p :: q :: t').length = 0x81 := by
          simp only [List.length_cons]
          simp only [List.length_cons] at hlen
          omega
        simp only [encStep, reduceIte, hpq, if_neg, ne_eq, not_false_eq_true,
          if_false, h81, if_true, Prod.mk.injEq] at heq
        obtain ⟨rfl, rfl, rfl⟩ := heq
        refine ⟨by simp [expandAll, Seg.expand], ?_, ?_⟩
        · intro seg hseg
          simp only [List.mem_singleton] at hseg
          subst hseg
          simp only [validSeg, List.length_reverse, List.length_cons,
            Bool.and_eq_true, decide_eq_true_eq]
          simp only [List.length_cons] at hlen
          omega
        · exact List.Chain.cons (by simpa using hOKlit _) List.Chain.nil

theorem encLoop_spec : ∀ (inp rbuf : List Nat) (rep : Bool) (prev : Seg),
    EncInv rbuf rep → chainInv prev rbuf rep →
    expandAll (encLoop inp rbuf rep) = rbuf.reverse ++ inp ∧
    (∀ seg ∈ encLoop inp rbuf rep, validSeg seg = true) ∧
    List.Chain (fun a b => segOK2 a b = true) prev (encLoop inp rbuf rep) := by
  intro inp
  induction inp with
  | nil =>
    intro rbuf rep prev hinv hch
    rcases hstep : encStep rbuf rep true with ⟨segs, rbuf2, rep2⟩
    obtain ⟨he, hv, hok⟩ :=
      encStep_eof_spec rbuf rep prev segs rbuf2 rep2 hinv hch hstep
    have hloop : encLoop [] rbuf rep = segs := by
      simp [encLoop, hstep]
    rw [hloop, List.append_nil]
    exact ⟨he, hv, hok⟩
  | cons c rest ih =>
    intro rbuf rep prev hinv hch
    rcases hstep : encStep (c :: rbuf) rep false with ⟨segs, rbuf2, rep2⟩
    obtain ⟨hinv2, hexp, hv, hchain⟩ :=
      encStep_cons_spec c rbuf rep prev segs rbuf2 rep2 hinv hch hstep
    have hloop : encLoop (c :: rest) rbuf rep = segs ++ encLoop rest rbuf2 rep2 := by
      simp [encLoop, hstep]
    rw [hloop]
    rcases hchain with ⟨hnil, hch2⟩ | ⟨x, hx, hOKx, hch2⟩
    · subst hnil
      obtain ⟨ih1, ih2, ih3⟩ := ih rbuf2 rep2 prev hinv2 hch2
      refine ⟨?_, ?_, ?_⟩
      · rw [List.nil_append, ih1]
        have : expandAll ([] : List Seg) ++ rbuf2.reverse = rbuf.reverse ++ [c] := hexp
        rw [expandAll] at this
        rw [List.nil_append] at this
        rw [this, List.append_assoc, List.singleton_append]
      · simpa using ih2
      · simpa using ih3
    · subst hx
      obtain ⟨ih1, ih2, ih3⟩ := ih rbuf2 rep2 x hinv2 hch2
      refine ⟨?_, ?_, ?_⟩
      · rw [expandAll_append, ih1, ← List.append_assoc, hexp,
          List.append_assoc, List.singleton_append]
      · intro seg hseg
        rcases List.mem_append.1 hseg with h | h
        · exact hv seg h
        · exact ih2 seg h
      · exact List.Chain.cons hOKx ih3

theorem encStates_spec : ∀ (inp rbuf : List Nat) (rep : Bool),
    EncInv rbuf rep → ∀ st ∈ encStates inp rbuf rep, EncInv st.1 st.2 := by
  intro inp
  induction inp with
  | nil =>
    intro rbuf rep hinv st hst
    simp only [encStates, List.mem_singleton] at hst
    subst hst
    exact hinv
  | cons c rest ih =>
    intro rbuf rep hinv st hst
    rcases hstep : encStep (c :: rbuf) rep false with ⟨segs, rbuf2, rep2⟩
    obtain ⟨hinv2, _, _, _⟩ :=
      encStep_cons_spec c rbuf rep prev0 segs rbuf2 rep2 hinv
        (chainInv_prev0 rbuf rep) hstep
    have hstates : encStates (c :: rest) rbuf rep
        = (rbuf, rep) :: encStates rest rbuf2 rep2 := by
      simp [encStates, hstep]
    rw [hstates] at hst
    rcases List.mem_cons.1 hst with rfl | h
    · exact hinv
    · exact ih rbuf2 rep2 hinv2 st h

theorem litConsume : ∀ (l rest acc : List Nat), 0 < l.length → l.length ≤ 0x80 →
    decLoop (l ++ rest) (0x100 - l.length) acc = decLoop rest 0 (acc ++ l) := by
  intro l
  induction l with
  | nil => intro rest acc h0 _; simp at h0
  | cons x l' ih =>
    intro rest acc h0 h128
    simp only [List.length_cons] at h128
    cases l' with
    | nil =>
      simp only [List.length_cons, List.length_nil, List.cons_append,
        List.nil_append]
      simp [decLoop]
    | cons y l'' =>
      simp only [List.length_cons] at h128
      simp only [List.length_cons, List.cons_append]
      rw [decLoop]
      rw [if_neg (by omega), if_neg (by omega)]
      rw [show (0x100 - (l''.length + 1 + 1) + 1) % 0x100
          = 0x100 - (l''.length + 1) by omega]
      have hrec := ih rest (acc ++ [x]) (by simp)
        (by simp only [List.length_cons]; omega)
      simp only [List.length_cons, List.cons_append] at hrec
      rw [hrec]
      simp

theorem decLoop_serSeg (seg : Seg) (hval : validSeg seg = true) :
    ∀ (rest acc : List Nat),
    decLoop (serSeg seg ++ rest) 0 acc = decLoop rest 0 (acc ++ seg.expand) := by
  intro rest acc
  cases seg with
  | run c b =>
    simp only [validSeg, Bool.and_eq_true, decide_eq_true_eq] at hval
    simp only [serSeg, Seg.expand, List.cons_append]
    rw [decLoop]
    rw [if_pos rfl, if_neg (by omega)]
    rw [decLoop]
    rw [if_neg (by omega), if_pos (by omega)]
    rw [List.nil_append]
  | lit l =>
    simp only [validSeg, Bool.and_eq_true, decide_eq_true_eq] at hval
    simp only [serSeg, Seg.expand, List.cons_append]
    rw [decLoop]
    rw [if_pos rfl, if_neg (by omega)]
    exact litConsume l rest acc (by omega) (by omega)

theorem decLoop_serAll : ∀ (segs : List Seg),
    (∀ seg ∈ segs, validSeg seg = true) → ∀ (rest acc : List Nat),
    decLoop (serAll segs ++ rest) 0 acc = decLoop rest 0 (acc ++ expandAll segs) := by
  intro segs
  induction segs with
  | nil => intro _ rest acc; simp [serAll, expandAll]
  | cons s t ih =>
    intro hval rest acc
    simp only [serAll, List.append_assoc]
    rw [decLoop_serSeg s (hval s (by simp)) (serAll t ++ rest) acc]
    rw [ih (fun seg h => hval seg (by simp [h])) rest (acc ++ s.expand)]
    simp [expandAll]

theorem litTrunc : ∀ (d : List Nat) (len : Nat) (acc : List Nat),
    0x80 ≤ len → len ≤ 0xff → d.length < 0x100 - len →
    decLoop d len acc = none := by
  intro d
  induction d with
  | nil =>
    intro len acc h1 h2 h3
    rw [decLoop]
    rw [if_neg (by omega)]
  | cons x d' ih =>
    intro len acc h1 h2 h3
    simp only [List.length_cons] at h3
    rw [decLoop]
    rw [if_neg (by omega), if_neg (by omega)]
    rw [show (len + 1) % 0x100 = len + 1 by omega]
    exact ih (len + 1) (acc ++ [x]) (by omega) (by omega) (by omega)

theorem decTrunc : ∀ (L : Nat) (d acc : List Nat),
    L ≠ 0 → L < 0x100 → d.length < segDataLen L →
    decLoop (L :: d) 0 acc = none := by
  intro L d acc h0 h256 hlen
  rw [decLoop]
  rw [if_pos rfl, if_neg h0]
  by_cases hrun : L < 0x80
  · simp only [segDataLen, if_pos hrun] at hlen
    have hd : d = [] := by
      cases d with
      | nil => rfl
      | cons a b => simp at hlen
    subst hd
    rw [decLoop]
    rw [if_neg h0]
  · simp only [segDataLen, if_neg hrun] at hlen
    exact litTrunc d L acc (by omega) (by omega) (by omega)

theorem encode_spec (s : List Nat) :
    expandAll (encode s) = s ∧
    (∀ seg ∈ encode s, validSeg seg = true) ∧
    List.Chain (fun a b => segOK2 a b = true) prev0 (encode s) := by
  have h := encLoop_spec s [] false prev0 ⟨by simp, trivial⟩
    (chainInv_prev0 [] false)
  simpa [encode] using h

/-- The byte sink of src/rle.c modelled for error-handling claims: `out` is
what has been successfully written, `cap` is how many more writes succeed
(`none` = the sink never fails), `err` is `ferror(fout)`, and `att` counts
every `fputc`-level write attempt. -/
structure Sink where
  out : List Nat
  cap : Option Nat
  err : Bool
  att : Nat
deriving DecidableEq, Repr

/-- One `fputc` to the sink: succeeds while capacity remains, otherwise sets
the sticky error flag; always counts one attempt. -/
def Sink.put (s : Sink) (b : Nat) : Sink × Bool :=
  match s.cap with
  | none => (⟨s.out ++ [b], none, s.err, s.att + 1⟩, true)
  | some 0 => (⟨s.out, some 0, true, s.att + 1⟩, false)
  | some (n + 1) => (⟨s.out ++ [b], some n, s.err, s.att + 1⟩, true)

/-- An `fwrite` of a byte list, modelled byte by byte. -/
def Sink.putList : Sink → List Nat → Sink
  | s, [] => s
  | s, b :: t => Sink.putList (s.put b).1 t

/-- The run-expansion do-while of `decode` (src/rle.c lines 60-63):
`do { if (fputc(ch, fout) == EOF) break; } while (--len);`.  Returns the
residual `len` (nonzero iff a write failed) and the sink. -/
def drainRun (b : Nat) : Nat → Sink → Nat × Sink
  | 0, s => (0, s)
  | n + 1, s =>
    let r := s.put b
    if r.2 then drainRun b n r.1 else (n + 1, r.1)

/-- Result of the `decode` loop: final `len`, final sink, input left
unconsumed, and whether the loop exited because `fgetc` returned EOF (as
opposed to `break`). -/
structure DecRes where
  len : Nat
  sink : Sink
  rem : List Nat
  eof : Bool
deriving DecidableEq, Repr

/-- The `decode` loop of src/rle.c (lines 51-69) with explicit sink errors.
Note the faithful asymmetry: a failed `fputc` inside the run do-while only
breaks the inner loop (the outer loop keeps reading), while a failed `fputc`
in the literal branch breaks the outer loop. -/
def decLoopF : List Nat → Nat → Sink → DecRes
  | [], len, s => ⟨len, s, [], true⟩
  | ch :: rest, len, s =>
    if len = 0 then
      if ch = 0 then ⟨0, s, rest, false⟩
      else decLoopF rest ch s
    else if len < 0x80 then
      let r := drainRun ch len s
      decLoopF rest r.1 r.2
    else
      let r := s.put ch
      if r.2 then decLoopF rest ((len + 1) % 0x100) r.1
      else ⟨len, r.1, rest, false⟩

/-- The four outcome categories of the spec's error taxonomy. -/
inductive Status where
  | success
  | inputIoError
  | outputIoError
  | truncatedStream
deriving DecidableEq, Repr

/-- A fresh sink with the given capacity. -/
def newSink (cap : Option Nat) : Sink := ⟨[], cap, false, 0⟩

/-- Run the `decode` loop on input bytes (the input ends in an error-EOF iff
the caller's `inErr` is true, which the loop itself never observes; only the
post-loop `ferror(fin)` check does). -/
def decodeF (inp : List Nat) (cap : Option Nat) : DecRes :=
  decLoopF inp 0 (newSink cap)

/-- Outcome classification of `decode` per the post-loop checks of src/rle.c
lines 71-80: `ferror(fin)` (the input ended in an error-EOF and the loop
actually reached it), then `ferror(fout)`, then leftover `len`. -/
def decClass (inp : List Nat) (inErr : Bool) (cap : Option Nat) : Status :=
  let r := decodeF inp cap
  if inErr && r.eof then Status.inputIoError
  else if r.sink.err then Status.outputIoError
  else if r.len ≠ 0 then Status.truncatedStream
  else Status.success

/-- The integer `decode` actually returns: `-EIO` (= -5) in all three error
branches of src/rle.c lines 71-80, else 0. -/
def decRet (inp : List Nat) (inErr : Bool) (cap : Option Nat) : Int :=
  let r := decodeF inp cap
  if inErr && r.eof then -5
  else if r.sink.err then -5
  else if r.len ≠ 0 then -5
  else 0

/-- One iteration of the `encode` loop body with explicit sink writes
(src/rle.c lines 97-123); mirrors `encStep` and additionally performs the
`fputc`/`fwrite` calls.  Returns (new buffer, new repeat flag, sink,
whether a flush happened — the C `flush != 0` condition guarding the
`ferror(fout)` check). -/
def encStepF : List Nat → Bool → Bool → Sink → List Nat × Bool × Sink × Bool
  | c :: p :: rest, true, isEof, s =>
    if c ≠ p then
      ([c], false,
       ((s.put ((c :: p :: rest).length - 1)).1.put
         ((c :: p :: rest).getLastD 0)).1, true)
    else if (c :: p :: rest).length = 0x7f || isEof then
      ([], false,
       ((s.put (c :: p :: rest).length).1.put
         ((c :: p :: rest).getLastD 0)).1, true)
    else
      (c :: p :: rest, true, s, false)
  | rbuf, true, _, s => (rbuf, true, s, false)
  | c :: p :: rest, false, isEof, s =>
    if c = p then
      if rest.isEmpty then ([c, p], true, s, false)
      else ([c, p], true,
        ((s.put (0x100 - rest.length)).1.putList rest.reverse), true)
    else if (c :: p :: rest).length = 0x81 then
      ([c], false,
       ((s.put (0x100 - 0x80)).1.putList (p :: rest).reverse), true)
    else if isEof then
      ([], false,
       ((s.put (0x100 - (c :: p :: rest).length)).1.putList
         (c :: p :: rest).reverse), true)
    else
      (c :: p :: rest, false, s, false)
  | rbuf, false, isEof, s =>
    if isEof then
      if rbuf.isEmpty then ([], false, s, false)
      else ([], false,
        ((s.put (0x100 - rbuf.length)).1.putList rbuf.reverse), true)
    else
      (rbuf, false, s, false)

/-- The `encode` loop of src/rle.c (lines 90-131) with explicit errors:
breaks immediately when `fgetc` reports an input error, and breaks after a
flush whose writes left `ferror(fout)` set.  Returns the final sink and
whether the loop broke on an input error (`ferror(fin)`). -/
def encLoopF : List Nat → Bool → List Nat → Bool → Sink → Sink × Bool
  | [], inErr, rbuf, rep, s =>
    if inErr then (s, true)
    else
      let r := encStepF rbuf rep true s
      (r.2.2.1, false)
  | c :: rest, inErr, rbuf, rep, s =>
    let r := encStepF (c :: rbuf) rep false s
    if r.2.2.2 && r.2.2.1.err then (r.2.2.1, false)
    else encLoopF rest inErr r.1 r.2.1 r.2.2.1

/-- Run `encode` on input bytes with the given input-error flag and sink
capacity. -/
def encodeF (inp : List Nat) (inErr : Bool) (cap : Option Nat) : Sink × Bool :=
  encLoopF inp inErr [] false (newSink cap)

/-- Outcome classification of `encode` per src/rle.c lines 133-139. -/
def encClass (inp : List Nat) (inErr : Bool) (cap : Option Nat) : Status :=
  let r := encodeF inp inErr cap
  if r.2 then Status.inputIoError
  else if r.1.err then Status.outputIoError
  else Status.success

/-- The integer `encode` actually returns (`-EIO` in both error branches). -/
def encRet (inp : List Nat) (inErr : Bool) (cap : Option Nat) : Int :=
  let r := encodeF inp inErr cap
  if r.2 then -5
  else if r.1.err then -5
  else 0

/-- C constant `EXIT_SUCCESS`. -/
def EXIT_SUCCESS : Nat := 0

/-- C constant `EXIT_FAILURE`. -/
def EXIT_FAILURE : Nat := 1

/-- The internal result code `ret` of `main` (src/rle.c lines 164-295) for
runs that reach the final `return` statement: `ret` starts as `-EINVAL`
(= -22) and keeps that value on every pre-operation `goto exit` path
(`argFail`); otherwise it is the selected operation's return value `opRet`,
overwritten by `-errno` when the operation succeeded, the input file is not
kept, and the post-success `unlink` of the input fails (lines 279-286). -/
def mainRet (argFail : Bool) (opRet : Int) (keep : Bool) (unlinkFails : Bool)
    (errno : Int) : Int :=
  if argFail then -22
  else if opRet = 0 ∧ keep = false ∧ unlinkFails = true then -errno
  else opRet

/-- The process exit status of `main`: src/rle.c line 295 is
`return ret ? EXIT_SUCCESS : EXIT_FAILURE;`. -/
def mainExit (argFail : Bool) (opRet : Int) (keep : Bool) (unlinkFails : Bool)
    (errno : Int) : Nat :=
  if mainRet argFail opRet keep unlinkFails errno ≠ 0 then EXIT_SUCCESS
  else EXIT_FAILURE

theorem drainRun_none : ∀ (len : Nat) (b : Nat) (out : List Nat) (e : Bool)
    (att : Nat),
    drainRun b len ⟨out, none, e, att⟩
      = (0, ⟨out ++ List.replicate len b, none, e, att + len⟩) := by
  intro len
  induction len with
  | zero => intro b out e att; simp [drainRun]
  | succ n ih =>
    intro b out e att
    simp only [drainRun, Sink.put]
    rw [ih b (out ++ [b]) e (att + 1)]
    simp only [Prod.mk.injEq, Sink.mk.injEq, List.append_assoc,
      List.singleton_append, List.replicate_succ, true_and, and_true]
    rw [if_pos trivial]
    rw [show att + 1 + n = att + (n + 1) from by omega]

theorem decLoopF_none : ∀ (inp : List Nat) (len : Nat) (out : List Nat)
    (att : Nat),
    (decLoopF inp len ⟨out, none, false, att⟩).sink.cap = none ∧
    (decLoopF inp len ⟨out, none, false, att⟩).sink.err = false ∧
    decLoop inp len out =
      (if (decLoopF inp len ⟨out, none, false, att⟩).len = 0
        then some (decLoopF inp len ⟨out, none, false, att⟩).sink.out
        else none) := by
  intro inp
  induction inp with
  | nil => intro len out att; simp [decLoopF, decLoop]
  | cons ch rest ih =>
    intro len out att
    by_cases hlen : len = 0
    · by_cases hch : ch = 0
      · simp [decLoopF, decLoop, hlen, hch]
      · simp only [decLoopF, decLoop, hlen, hch, if_true, if_neg hch, reduceIte]
        exact ih ch out att
    · by_cases hrun : len < 0x80
      · simp only [decLoopF, decLoop, if_neg hlen, if_pos hrun,
          drainRun_none len ch out false att]
        exact ih 0 (out ++ List.replicate len ch) (att + len)
      · simp only [decLoopF, decLoop, if_neg hlen, if_neg hrun, Sink.put]
        exact ih ((len + 1) % 0x100) (out ++ [ch]) (att + 1)

theorem decClass_pure (inp : List Nat) :
    decClass inp false none
      = (if decode inp = none then Status.truncatedStream
         else Status.success) := by
  obtain ⟨hcap, herr, hdec⟩ := decLoopF_none inp 0 [] 0
  simp only [decClass, decodeF, newSink, Bool.false_and, Bool.false_eq_true,
    if_false, herr, decode]
  by_cases hl : (decLoopF inp 0 ⟨[], none, false, 0⟩).len = 0
  · rw [if_pos hl] at hdec
    simp [hl, hdec]
  · rw [if_neg hl] at hdec
    simp [hl, hdec]

/-- C1: round-trip — for every finite byte sequence S, decoding the output of
`encode` on S succeeds and reproduces S exactly. -/
theorem c1_round_trip (s : List Nat) (hbytes : ∀ b ∈ s, b < 256) :
    decode (encodeBytes s) = some s := by
  have hval := (encode_spec s).2.1
  have hexp := (encode_spec s).1
  unfold decode encodeBytes
  have h := decLoop_serAll (encode s) hval [] []
  rw [List.append_nil] at h
  rw [h, List.nil_append, hexp]
  rfl

/-- Witness for C1 at the concrete input [65, 65, 66, 65, 65]. -/
theorem c1_round_trip_witness :
    (∀ b ∈ [65, 65, 66, 65, 65], b < 256) ∧
    decode (encodeBytes [65, 65, 66, 65, 65]) = some [65, 65, 66, 65, 65] :=
  ⟨by decide, c1_round_trip [65, 65, 66, 65, 65] (by decide)⟩

/-- C2: decoder segment semantics — decoding the serialisation of any list of
valid segments yields the concatenation of the segment expansions in input
order (a run byte is written L times, a literal's 256-L bytes verbatim), and
a 0 length-control byte terminates the decode loop successfully, ignoring
anything after it. -/
theorem c2_decoder_segments (segs : List Seg) (junk : List Nat)
    (hval : ∀ seg ∈ segs, validSeg seg = true) :
    decode (serAll segs) = some (expandAll segs) ∧
    decode (serAll segs ++ 0 :: junk) = some (expandAll segs) := by
  constructor
  · unfold decode
    have h := decLoop_serAll segs hval [] []
    rw [List.append_nil] at h
    rw [h, List.nil_append]
    rfl
  · unfold decode
    rw [decLoop_serAll segs hval (0 :: junk) [], List.nil_append]
    rw [decLoop]
    rw [if_pos rfl, if_pos rfl]

/-- Witness for C2 at a concrete segment list and trailing junk. -/
theorem c2_decoder_segments_witness :
    (∀ seg ∈ [Seg.run 2 7, Seg.lit [9]], validSeg seg = true) ∧
    decode (serAll [Seg.run 2 7, Seg.lit [9]])
      = some (expandAll [Seg.run 2 7, Seg.lit [9]]) ∧
    decode (serAll [Seg.run 2 7, Seg.lit [9]] ++ 0 :: [1, 2])
      = some (expandAll [Seg.run 2 7, Seg.lit [9]]) :=
  ⟨by decide, (c2_decoder_segments [Seg.run 2 7, Seg.lit [9]] [1, 2] (by decide)).1,
    (c2_decoder_segments [Seg.run 2 7, Seg.lit [9]] [1, 2] (by decide)).2⟩

/-- C3: segment validity bounds — every run segment emitted by `encode` has a
count in 2..127 and every literal segment has 1..128 bytes (`validSeg`), and
nothing of the input is lost in the splitting: the emitted segments expand
back to the whole input. -/
theorem c3_segment_bounds (s : List Nat) :
    (∀ seg ∈ encode s, validSeg seg = true) ∧ expandAll (encode s) = s :=
  ⟨(encode_spec s).2.1, (encode_spec s).1⟩

/-- Witness for C3 at a concrete input and segment. -/
theorem c3_segment_bounds_witness :
    Seg.run 3 5 ∈ encode [5, 5, 5] ∧ validSeg (Seg.run 3 5) = true ∧
    expandAll (encode [5, 5, 5]) = [5, 5, 5] :=
  ⟨by decide, (c3_segment_bounds [5, 5, 5]).1 (Seg.run 3 5) (by decide),
    (c3_segment_bounds [5, 5, 5]).2⟩

set_option maxRecDepth 40000 in
/-- C4 counterexample: the claim "no two consecutive emitted segments are
both Literal, and no two consecutive are both Run with the same payload"
fails on the code: 129 copies of byte 1 encode to two adjacent runs of the
same payload (127 + 2), and 130 alternating bytes encode to two adjacent
literals (128 + 2). -/
theorem c4_counterexample :
    encode (List.replicate 129 1) = [Seg.run 127 1, Seg.run 2 1] ∧
    segMergeFree (Seg.run 127 1) (Seg.run 2 1) = false ∧
    encode ((List.range 130).map fun i => i % 2)
      = [Seg.lit ((List.range 128).map fun i => i % 2), Seg.lit [0, 1]] ∧
    segMergeFree (Seg.lit ((List.range 128).map fun i => i % 2))
      (Seg.lit [0, 1]) = false := by
  decide

/-- C4 amended: consecutive emitted segments are merge-free except at the
splitting maxima — two adjacent literals only when the first has exactly 128
bytes, and two adjacent runs of the same payload only when the first has
count exactly 127 (`segOK2`). -/
theorem c4_amended (s : List Nat) :
    List.Chain' (fun a b => segOK2 a b = true) (encode s) :=
  (show List.Chain' (fun a b => segOK2 a b = true) (prev0 :: encode s) from
    (encode_spec s).2.2).tail

/-- C5: truncation detection — decoding a well-formed stream (serialisation
of valid segments) classifies as success (end-of-input at a segment boundary),
while appending a length-control byte with fewer data bytes than it announces
classifies as the truncation error of src/rle.c line 77-79. -/
theorem c5_truncation (segs : List Seg)
    (hval : ∀ seg ∈ segs, validSeg seg = true) :
    decClass (serAll segs) false none = Status.success ∧
    ∀ (L : Nat) (d : List Nat), L ≠ 0 → L < 0x100 → d.length < segDataLen L →
      decClass (serAll segs ++ L :: d) false none = Status.truncatedStream := by
  constructor
  · have h1 : decode (serAll segs) = some (expandAll segs) := by
      unfold decode
      have h := decLoop_serAll segs hval [] []
      rw [List.append_nil] at h
      rw [h, List.nil_append]
      rfl
    rw [decClass_pure, h1]
    simp
  · intro L d hL0 hL hlen
    have h2 : decode (serAll segs ++ L :: d) = none := by
      unfold decode
      rw [decLoop_serAll segs hval (L :: d) []]
      exact decTrunc L d ([] ++ expandAll segs) hL0 hL hlen
    rw [decClass_pure, h2]
    simp

/-- Witness for C5 at a concrete stream: [2, 7] decodes fine, [2, 7, 9] ends
inside a announced run and is reported truncated. -/
theorem c5_truncation_witness :
    (∀ seg ∈ [Seg.run 2 7], validSeg seg = true) ∧
    decClass (serAll [Seg.run 2 7]) false none = Status.success ∧
    decClass (serAll [Seg.run 2 7] ++ 9 :: []) false none
      = Status.truncatedStream :=
  ⟨by decide, (c5_truncation [Seg.run 2 7] (by decide)).1,
    (c5_truncation [Seg.run 2 7] (by decide)).2 9 [] (by decide) (by decide)
      (by decide)⟩

/-- C6: the concrete vector — "AABAA" encodes to Run(2,'A'), Literal(1,'B'),
Run(2,'A'), i.e. bytes 0x02 'A' 0xFF 'B' 0x02 'A', and those bytes decode
back to "AABAA". -/
theorem c6_vector :
    encode [65, 65, 66, 65, 65] = [Seg.run 2 65, Seg.lit [66], Seg.run 2 65] ∧
    encodeBytes [65, 65, 66, 65, 65] = [0x02, 65, 0xff, 66, 0x02, 65] ∧
    decode [0x02, 65, 0xff, 66, 0x02, 65] = some [65, 65, 66, 65, 65] := by
  decide

/-- C7 counterexample: the returned status does NOT distinguish the four
outcomes — a truncated stream and an input I/O error are different outcome
classes but both make `decode` return the same value -EIO (= -5), so a
caller cannot tell from the returned status alone which outcome occurred. -/
theorem c7_counterexample :
    decClass [1] false none = Status.truncatedStream ∧
    decClass [] true none = Status.inputIoError ∧
    decRet [1] false none = -5 ∧
    decRet [] true none = -5 := by
  decide

/-- C7 amended: `encode` and `decode` each internally classify the outcome
into the four categories (success, input error, output error, truncation —
all four are realisable), but the returned integer collapses them to just
two values: 0 for success and -EIO (-5) for every error category, so the
return value distinguishes only success from failure. -/
theorem c7_amended :
    (∀ (inp : List Nat) (inErr : Bool) (cap : Option Nat),
      (decRet inp inErr cap
        = if decClass inp inErr cap = Status.success then 0 else -5) ∧
      (encRet inp inErr cap
        = if encClass inp inErr cap = Status.success then 0 else -5)) ∧
    decClass [] false none = Status.success ∧
    decClass [] true none = Status.inputIoError ∧
    decClass [2, 65] false (some 0) = Status.outputIoError ∧
    decClass [1] false none = Status.truncatedStream ∧
    encClass [] false none = Status.success ∧
    encClass [] true none = Status.inputIoError ∧
    encClass [1] false (some 0) = Status.outputIoError := by
  refine ⟨?_, by decide, by decide, by decide, by decide, by decide,
    by decide, by decide⟩
  intro inp inErr cap
  constructor
  · by_cases h1 : (inErr && (decodeF inp cap).eof) = true
    · simp [decRet, decClass, h1]
    · by_cases h2 : (decodeF inp cap).sink.err = true
      · simp [decRet, decClass, h1, h2]
      · by_cases h3 : (decodeF inp cap).len = 0
        · simp [decRet, decClass, h1, h2, h3]
        · simp [decRet, decClass, h1, h2, h3]
  · by_cases h1 : (encodeF inp inErr cap).2 = true
    · simp [encRet, encClass, h1]
    · by_cases h2 : (encodeF inp inErr cap).1.err = true
      · simp [encRet, encClass, h1, h2]
      · simp [encRet, encClass, h1, h2]

/-- C8 counterexample: decode does NOT stop consuming input at its first
I/O error — on input [2, 65] with a sink that fails every write, the error
strikes on the very first write attempt (att = 1, whole input consumed), yet
on the extension [2, 65, 66, 67] decode goes on to consume the two further
bytes 66 and 67 and attempts two further writes (att = 3, rem = []) before
returning the error. -/
theorem c8_counterexample :
    (decodeF [2, 65] (some 0)).sink.err = true ∧
    (decodeF [2, 65] (some 0)).sink.att = 1 ∧
    (decodeF [2, 65] (some 0)).rem = [] ∧
    (decodeF [2, 65, 66, 67] (some 0)).sink.err = true ∧
    (decodeF [2, 65, 66, 67] (some 0)).rem = [] ∧
    (decodeF [2, 65, 66, 67] (some 0)).sink.att = 3 := by
  decide

/-- C8 amended: the first I/O error is terminal in the sense that the
operation always returns the error status (never success) once an input
error was hit at end-of-input or the sink has failed; however, decode may
keep consuming input (attempting one failing write per run-data byte) after
an output error during run expansion, and encode finishes the current
segment's write attempts, so "consumes no further bytes and attempts no
further writes" does not hold. -/
theorem c8_amended (inp : List Nat) (inErr : Bool) (cap : Option Nat) :
    ((decodeF inp cap).sink.err = true → decRet inp inErr cap = -5) ∧
    (inErr = true → (decodeF inp cap).eof = true → decRet inp inErr cap = -5) ∧
    ((encodeF inp inErr cap).1.err = true → encRet inp inErr cap = -5) ∧
    ((encodeF inp inErr cap).2 = true → encRet inp inErr cap = -5) := by
  refine ⟨?_, ?_, ?_, ?_⟩
  · intro h
    by_cases h1 : (inErr && (decodeF inp cap).eof) = true
    · simp [decRet, h1]
    · simp [decRet, h1, h]
  · intro hie heof
    simp [decRet, hie, heof]
  · intro h
    by_cases h1 : (encodeF inp inErr cap).2 = true
    · simp [encRet, h1]
    · simp [encRet, h1, h]
  · intro h
    simp [encRet, h]

/-- Witness for C8 amended at concrete error scenarios. -/
theorem c8_amended_witness :
    decRet [3, 8] false (some 0) = -5 ∧
    decRet [7] true none = -5 ∧
    encRet [4] false (some 0) = -5 ∧
    encRet [] true (some 5) = -5 :=
  ⟨(c8_amended [3, 8] false (some 0)).1 (by decide),
   (c8_amended [7] true none).2.1 rfl (by decide),
   (c8_amended [4] false (some 0)).2.2.1 (by decide),
   (c8_amended [] true (some 5)).2.2.2 (by decide)⟩

/-- C9: process exit code inversion — for runs of `main` reaching the final
`return ret ? EXIT_SUCCESS : EXIT_FAILURE;`, the exit status is EXIT_SUCCESS
iff the internal result is nonzero (an argument/filename check failed, the
codec operation failed, or the post-success deletion of the input failed),
and EXIT_FAILURE iff everything succeeded. -/
theorem c9_exit_inversion (argFail : Bool) (opRet : Int)
    (keep unlinkFails : Bool) (errno : Int) (herrno : 0 < errno) :
    (mainExit argFail opRet keep unlinkFails errno = EXIT_SUCCESS ↔
      (argFail = true ∨ opRet ≠ 0 ∨ (keep = false ∧ unlinkFails = true))) ∧
    (mainExit argFail opRet keep unlinkFails errno = EXIT_FAILURE ↔
      (argFail = false ∧ opRet = 0 ∧ (keep = true ∨ unlinkFails = false))) := by
  have hret : mainRet argFail opRet keep unlinkFails errno = 0 ↔
      (argFail = false ∧ opRet = 0 ∧ (keep = true ∨ unlinkFails = false)) := by
    unfold mainRet
    cases argFail <;> cases keep <;> cases unlinkFails <;>
      by_cases hop : opRet = 0 <;> simp [hop] <;> omega
  have hexitS : mainExit argFail opRet keep unlinkFails errno = EXIT_SUCCESS ↔
      ¬(mainRet argFail opRet keep unlinkFails errno = 0) := by
    unfold mainExit EXIT_SUCCESS EXIT_FAILURE
    by_cases h : mainRet argFail opRet keep unlinkFails errno = 0
    · simp [h]
    · simp [h]
  have hexitF : mainExit argFail opRet keep unlinkFails errno = EXIT_FAILURE ↔
      mainRet argFail opRet keep unlinkFails errno = 0 := by
    unfold mainExit EXIT_SUCCESS EXIT_FAILURE
    by_cases h : mainRet argFail opRet keep unlinkFails errno = 0
    · simp [h]
    · simp [h]
  constructor
  · rw [hexitS, hret]
    cases argFail <;> cases keep <;> cases unlinkFails <;> simp
  · rw [hexitF, hret]

/-- Witness for C9: a run where the operation succeeded but the input-file
deletion failed exits with EXIT_SUCCESS. -/
theorem c9_exit_inversion_witness :
    (0 : Int) < 2 ∧ mainExit false 0 false true 2 = EXIT_SUCCESS :=
  ⟨by decide,
    (c9_exit_inversion false 0 false true 2 (by decide)).1.mpr
      (Or.inr (Or.inr ⟨rfl, rfl⟩))⟩

/-- C10: encoder buffer safety — at the start of every iteration of the
`encode` loop the buffered length is at most 128 (so after the one-byte
append the length never exceeds the 0x81 = 129 byte buffer and the store
`buf[len++]` is in bounds), and in repeat mode the buffer holds at least 2
(and at most 126) bytes, so the reads `buf[len-2]`, `buf[len-1]` and
`buf[0]` are in bounds. -/
theorem c10_buffer_safety (s : List Nat) :
    ∀ st ∈ encStates s [] false,
      st.1.length ≤ 128 ∧
      (st.2 = true → 2 ≤ st.1.length ∧ st.1.length ≤ 126) := by
  intro st hst
  have h := encStates_spec s [] false ⟨by simp, trivial⟩ st hst
  cases hrep : st.2 with
  | false =>
    rw [hrep] at h
    exact ⟨h.1, by simp⟩
  | true =>
    rw [hrep] at h
    obtain ⟨m, v, hbuf, hm⟩ := h
    refine ⟨?_, fun _ => ⟨?_, ?_⟩⟩ <;> rw [hbuf] <;> simp <;> omega

/-- Witness for C10 at a concrete reachable repeat-mode state. -/
theorem c10_buffer_safety_witness :
    ([9, 9], true) ∈ encStates [9, 9, 9] [] false ∧
    2 ≤ ([9, 9], true).1.length ∧ ([9, 9], true).1.length ≤ 126 :=
  ⟨by decide, (c10_buffer_safety [9, 9, 9] ([9, 9], true) (by decide)).2 rfl⟩
